import Mathlib

/-!
Shallow embedding of the `s3-market` trading engine and proofs of its
specification claims.

The Python source consists of a `Trade` record, an abstract `Stock` class with
`CommonStock`/`PreferredStock` subclasses, and a `Market` aggregate.  Numbers
(prices, quantities, timestamps) are embedded as rationals; Python's in-place
mutation is embedded as explicit state passing, and raised exceptions as an
`Option MarketError` component (`none` = normal return).  Mutations that the
source performs before an exception is raised remain visible in the returned
state, exactly as they would on the aliased Python objects.
-/

/-- Exception kinds raised by the source (`ValueError` cases are told apart by
their message), plus `attributeError` for Python's `AttributeError`, which the
source raises when it calls a method that no class defines. -/
inductive MarketError
  | invalidSymbol
  | invalidPrice
  | symbolMismatch
  | duplicateSymbol
  | notFound
  | insufficientData
  | attributeError
deriving DecidableEq

/-- Enumeration `TradeIndicator` with members `BUY` and `SELL`. -/
inductive TradeIndicator
  | BUY
  | SELL
deriving DecidableEq

/-- Record class `Trade`: plain data carrier, no validation. -/
structure Trade where
  trade_id : Nat
  stock_name : String
  quantity : ℚ
  indicator : TradeIndicator
  traded_price : ℚ
  timestamp : ℚ
deriving DecidableEq

/-- Variant data distinguishing the two `Stock` subclasses: `CommonStock`
carries `last_dividend`; `PreferredStock` carries its fixed dividend rate
(field `fixed_dividend_ratio` in the source) and `par_value`. -/
inductive StockVariant
  | common (last_dividend : ℚ)
  | preferred (fixed_dividend_rate : ℚ) (par_value : ℚ)
deriving DecidableEq

/-- State of a `Stock` object: the shared fields of the abstract class (symbol
`name`, current `price`, append-only `trades` log) plus the subclass data. -/
structure Stock where
  name : String
  price : ℚ
  trades : List Trade
  variant : StockVariant
deriving DecidableEq

/-- Static method `Stock.is_valid_name`: `name is not None and
re.match("[A-Z]{3}", name)`.  `re.match` anchors only at the start of the
string, so it tests that the first three characters exist and are uppercase
ASCII letters; anything may follow. -/
def Stock.is_valid_name (name : Option String) : Bool :=
  match name with
  | none => false
  | some n => 3 ≤ n.length && (n.toList.take 3).all Char.isUpper

/-- Static method `Stock.is_valid_price`: the body is `return True`
(a `TODO` in the source), so every price passes. -/
def Stock.is_valid_price (_stockName : String) (_price : ℚ) : Bool :=
  true

/-- Constructor `Stock.__init__(name, price)` together with the subclass
constructors (which call it via `super()` and then store their own fields):
validates the name, then the price, then creates the stock with an empty
trade log. -/
def Stock.construct (name : Option String) (price : ℚ) (v : StockVariant) :
    Except MarketError Stock :=
  match name with
  | none => .error .invalidSymbol
  | some n =>
    if !(Stock.is_valid_name (some n)) then .error .invalidSymbol
    else if !(Stock.is_valid_price n price) then .error .invalidPrice
    else .ok { name := n, price := price, trades := [], variant := v }

/-- Method `Stock.set_price`: raises `InvalidPrice` if validation fails
(it never does), otherwise assigns `self.price = price`. -/
def Stock.set_price (s : Stock) (price : ℚ) : Stock × Option MarketError :=
  if !(Stock.is_valid_price s.name price) then (s, some .invalidPrice)
  else ({ s with price := price }, none)

/-- Method `Stock.add_trade`: raises `SymbolMismatch` when the trade names a
different stock; otherwise calls `set_price` (whose exception would propagate)
and appends the trade only after the price has been set successfully. -/
def Stock.add_trade (s : Stock) (t : Trade) : Stock × Option MarketError :=
  if t.stock_name ≠ s.name then (s, some .symbolMismatch)
  else
    match s.set_price t.traded_price with
    | (s', some e) => (s', some e)
    | (s', none) => ({ s' with trades := s'.trades ++ [t] }, none)

/-- Method `get_dividend_yield` of the two subclasses, dispatched on the
variant data: `last_dividend / price` for common stock,
`(fixed_dividend_ratio * par_value) / price` for preferred stock, and `0`
whenever `price == 0`. -/
def Stock.get_dividend_yield (s : Stock) : ℚ :=
  match s.variant with
  | .common last_dividend =>
    if s.price ≠ 0 then last_dividend / s.price else 0
  | .preferred rate par_value =>
    if s.price ≠ 0 then (rate * par_value) / s.price else 0

/-- Window length of `get_volume_weighted_price`: the source computes
`now_minus_10_seconds = time.time() - 10` (10 seconds stand in for the
documented 15 minutes, to ease demonstration). -/
def price_window : ℚ := 10

/-- Loop body of `get_volume_weighted_price`: walk the given list (the
reversed trade log), `break` at the first trade older than the cutoff, and
accumulate `Σ price·quantity` and `Σ quantity` for the rest. -/
def vwapLoop : List Trade → ℚ → ℚ × ℚ → ℚ × ℚ
  | [], _, acc => acc
  | t :: ts, cutoff, acc =>
    if t.timestamp < cutoff then acc
    else vwapLoop ts cutoff (acc.1 + t.traded_price * t.quantity, acc.2 + t.quantity)

/-- Method `Stock.get_volume_weighted_price`: iterates `reversed(self.trades)`
with an early `break` at the first out-of-window trade, then returns
`nominator / denominator` if the denominator is nonzero and `0.0` otherwise.
The current time `time.time()` is passed in explicitly as `now`. -/
def Stock.get_volume_weighted_price (s : Stock) (now : ℚ) : ℚ :=
  let acc := vwapLoop s.trades.reverse (now - price_window) (0, 0)
  if acc.2 ≠ 0 then acc.1 / acc.2 else 0

/-! ### The market registry

`self.stocks_by_name` is a Python `dict` (insertion-ordered, unique keys),
embedded as an association list.  Assigning a looked-up key replaces the value
in place; `register` appends a fresh key at the end. -/

/-- Dictionary lookup `stocks_by_name[name]` (as an `Option`). -/
def lookupStock : List (String × Stock) → String → Option Stock
  | [], _ => none
  | (k, s) :: rest, name => if k = name then some s else lookupStock rest name

/-- Replace the value stored under an existing key, leaving everything else in
place (Python's in-place mutation of the stock object aliased by the dict). -/
def setStock : List (String × Stock) → String → Stock → List (String × Stock)
  | [], _, _ => []
  | (k, s) :: rest, name, s' =>
    if k = name then (k, s') :: setStock rest name s'
    else (k, s) :: setStock rest name s'

/-- Lookup in a price map `new_prices` (a Python dict of symbol to price). -/
def lookupPrice : List (String × ℚ) → String → Option ℚ
  | [], _ => none
  | (k, p) :: rest, name => if k = name then some p else lookupPrice rest name

/-- State of a `Market` object. -/
structure Market where
  stocks_by_name : List (String × Stock)
  trade_id_counter : Nat
deriving DecidableEq

/-- Constructor `Market.__init__`: empty registry, counter starts at 1. -/
def Market.init : Market :=
  { stocks_by_name := [], trade_id_counter := 1 }

/-- Method `Market.register`: raises `DuplicateSymbol` when the name is
already a key, otherwise stores the stock under its own name. -/
def Market.register (m : Market) (s : Stock) : Market × Option MarketError :=
  if (lookupStock m.stocks_by_name s.name).isSome then
    (m, some .duplicateSymbol)
  else
    ({ m with stocks_by_name := m.stocks_by_name ++ [(s.name, s)] }, none)

/-- Method `Market.buy_now`: raises `NotFound` for an unregistered symbol;
otherwise builds a `Trade` with the current counter and indicator `BUY` and
routes it to `add_trade`, incrementing the counter only if that succeeds.
`time.time()` is passed in explicitly as `ts`. -/
def Market.buy_now (m : Market) (stock_name : String) (quantity price ts : ℚ) :
    Market × Option MarketError :=
  match lookupStock m.stocks_by_name stock_name with
  | none => (m, some .notFound)
  | some s =>
    match s.add_trade
        { trade_id := m.trade_id_counter, stock_name := stock_name,
          quantity := quantity, indicator := .BUY,
          traded_price := price, timestamp := ts } with
    | (s', some e) =>
      ({ m with stocks_by_name := setStock m.stocks_by_name stock_name s' }, some e)
    | (s', none) =>
      ({ m with stocks_by_name := setStock m.stocks_by_name stock_name s',
                trade_id_counter := m.trade_id_counter + 1 }, none)

/-- Method `Market.sell_now`: identical to `buy_now` except that the recorded
trade's indicator is `SELL`. -/
def Market.sell_now (m : Market) (stock_name : String) (quantity price ts : ℚ) :
    Market × Option MarketError :=
  match lookupStock m.stocks_by_name stock_name with
  | none => (m, some .notFound)
  | some s =>
    match s.add_trade
        { trade_id := m.trade_id_counter, stock_name := stock_name,
          quantity := quantity, indicator := .SELL,
          traded_price := price, timestamp := ts } with
    | (s', some e) =>
      ({ m with stocks_by_name := setStock m.stocks_by_name stock_name s' }, some e)
    | (s', none) =>
      ({ m with stocks_by_name := setStock m.stocks_by_name stock_name s',
                trade_id_counter := m.trade_id_counter + 1 }, none)

/-- Generic form of `buy_now`/`sell_now` with the trade indicator as a
parameter, used to state that the two methods differ only in the side they
record (claim C10); the indicator is used in one place only. -/
def Market.trade_now (ind : TradeIndicator) (m : Market) (stock_name : String)
    (quantity price ts : ℚ) : Market × Option MarketError :=
  match lookupStock m.stocks_by_name stock_name with
  | none => (m, some .notFound)
  | some s =>
    match s.add_trade
        { trade_id := m.trade_id_counter, stock_name := stock_name,
          quantity := quantity, indicator := ind,
          traded_price := price, timestamp := ts } with
    | (s', some e) =>
      ({ m with stocks_by_name := setStock m.stocks_by_name stock_name s' }, some e)
    | (s', none) =>
      ({ m with stocks_by_name := setStock m.stocks_by_name stock_name s',
                trade_id_counter := m.trade_id_counter + 1 }, none)

/-- Method `Market.update_stock_prices`: for each entry of the dict, call
`set_price` on a registered stock (an exception there would propagate, ending
the loop), or print a not-found warning and continue.  The returned list
collects the warned symbols in iteration order. -/
def Market.update_stock_prices (m : Market) (new_prices : List (String × ℚ)) :
    Market × List String × Option MarketError :=
  match new_prices with
  | [] => (m, [], none)
  | (stock_name, new_price) :: rest =>
    match lookupStock m.stocks_by_name stock_name with
    | some s =>
      match s.set_price new_price with
      | (s', some e) =>
        ({ m with stocks_by_name := setStock m.stocks_by_name stock_name s' },
         [], some e)
      | (s', none) =>
        Market.update_stock_prices
          { m with stocks_by_name := setStock m.stocks_by_name stock_name s' }
          rest
    | none =>
      match Market.update_stock_prices m rest with
      | (m', warned, e) => (m', stock_name :: warned, e)

/-- Attribute access `s.get_price()` performed by `get_geometric_mean`: no
class in the source defines a `get_price` method (the attribute is named
`price`, and every other call site reads `self.price` directly), so this call
raises `AttributeError` on every stock. -/
def Stock.get_price (_s : Stock) : Except MarketError ℚ :=
  .error .attributeError

/-- Loop `for s in stocks: product *= s.get_price()` of `get_geometric_mean`,
with the exception of `get_price` propagating. -/
def product_of_prices : List Stock → ℚ → Except MarketError ℚ
  | [], acc => .ok acc
  | s :: rest, acc =>
    match s.get_price with
    | .error e => .error e
    | .ok p => product_of_prices rest (acc * p)

/-- Method `Market.get_geometric_mean`: raises `InsufficientData` on an empty
registry; otherwise multiplies up `s.get_price()` over all stocks and returns
`product ** (1.0 / len(stocks))`. -/
noncomputable def Market.get_geometric_mean (m : Market) :
    Except MarketError ℝ :=
  let stocks := m.stocks_by_name.map Prod.snd
  if stocks.length = 0 then .error .insufficientData
  else
    match product_of_prices stocks 1 with
    | .error e => .error e
    | .ok product =>
      .ok ((product : ℝ) ^ ((1 : ℝ) / (stocks.length : ℝ)))

/-! ### Caller-visible operation sequences

Claim C5 quantifies over sequences of market calls.  A command either
registers a freshly constructed stock (the only way stocks enter a market in
the source) or requests a buy/sell. -/

/-- One call made by an external caller against a `Market`. -/
inductive Cmd
  | register (name : Option String) (price : ℚ) (v : StockVariant)
  | buy (stock_name : String) (quantity price ts : ℚ)
  | sell (stock_name : String) (quantity price ts : ℚ)

/-- Whether a command is a buy/sell request (the calls that consume ids). -/
def Cmd.isTrade : Cmd → Bool
  | .register _ _ _ => false
  | .buy _ _ _ _ => true
  | .sell _ _ _ _ => true

/-- Execute one command; a construction failure surfaces as the exception of
the `register` call. -/
def Market.step (m : Market) (c : Cmd) : Market × Option MarketError :=
  match c with
  | .register n p v =>
    match Stock.construct n p v with
    | .error e => (m, some e)
    | .ok s => m.register s
  | .buy sn q p ts => m.buy_now sn q p ts
  | .sell sn q p ts => m.sell_now sn q p ts

/-- Execute a sequence of commands (a caller catching every exception and
carrying on). -/
def Market.run (m : Market) : List Cmd → Market
  | [] => m
  | c :: cs => Market.run (Market.step m c).1 cs

/-- Trade ids recorded in one stock's log, oldest first. -/
def stockIds (s : Stock) : List Nat :=
  s.trades.map Trade.trade_id

/-- Trade ids recorded anywhere in a market, stock by stock. -/
def allTradeIds (m : Market) : List Nat :=
  (m.stocks_by_name.map (fun e => stockIds e.2)).flatten

/-! ### Specification-side helpers for the windowed average (claim C1) -/

/-- Continuation condition of the scan loop: the trade is not older than the
cutoff. -/
def keep (cutoff : ℚ) (t : Trade) : Bool :=
  !(decide (t.timestamp < cutoff))

/-- Trades of the log whose timestamp lies in the trailing window
`[now - price_window, now]`. -/
def windowTrades (s : Stock) (now : ℚ) : List Trade :=
  s.trades.filter fun t =>
    decide (now - price_window ≤ t.timestamp) && decide (t.timestamp ≤ now)

/-- Sum of `price · quantity` over a list of trades. -/
def sumPQ (l : List Trade) : ℚ :=
  (l.map (fun t => t.traded_price * t.quantity)).sum

/-- Sum of `quantity` over a list of trades. -/
def sumQ (l : List Trade) : ℚ :=
  (l.map (fun t => t.quantity)).sum

/-! ### Concrete states used by witnesses and evaluations -/

/-- Market holding the single common stock `TEA` at price 34.42 (as built by
the demonstration harness). -/
def marketWithTEA : Market :=
  (Market.init.register
    { name := "TEA", price := 34.42, trades := [], variant := .common 0 }).1

/-- Stock `TEA` after the demonstration harness's two trades: 10 shares at
34.30 at time 0, then 20 shares at 34.20 at time 1. -/
def stockTEATraded : Stock :=
  { name := "TEA", price := 34.2, variant := .common 0,
    trades :=
      [{ trade_id := 1, stock_name := "TEA", quantity := 10,
         indicator := .BUY, traded_price := 34.3, timestamp := 0 },
       { trade_id := 2, stock_name := "TEA", quantity := 20,
         indicator := .SELL, traded_price := 34.2, timestamp := 1 }] }

/-- Invariant maintained by every reachable market state: the counter is at
least its initial value 1, every registry entry is keyed by its stock's own
symbol, keys are unique, and the recorded trade ids are, up to the order in
which the logs are concatenated, exactly `1, ..., trade_id_counter - 1`. -/
structure MarketOk (m : Market) : Prop where
  counter_pos : 1 ≤ m.trade_id_counter
  keys_names : ∀ e ∈ m.stocks_by_name, e.1 = e.2.name
  keys_nodup : (m.stocks_by_name.map Prod.fst).Nodup
  ids_perm :
    (allTradeIds m).Perm (List.range' 1 (m.trade_id_counter - 1))

/-! ### Association-list lemmas -/

theorem lookupStock_append (l₁ l₂ : List (String × Stock)) (x : String) :
    lookupStock (l₁ ++ l₂) x =
      match lookupStock l₁ x with
      | some s => some s
      | none => lookupStock l₂ x := by
  induction l₁ with
  | nil => simp [lookupStock]
  | cons e rest ih =>
    obtain ⟨k, s⟩ := e
    by_cases h : k = x <;> simp [lookupStock, h, ih]

theorem lookupStock_eq_none_iff (l : List (String × Stock)) (x : String) :
    lookupStock l x = none ↔ x ∉ l.map Prod.fst := by
  induction l with
  | nil => simp [lookupStock]
  | cons e rest ih =>
    obtain ⟨k, s⟩ := e
    by_cases h : k = x
    · subst h; simp [lookupStock]
    · simp [lookupStock, h, ih, Ne.symm h]

/-! ### Claim theorems: stock-level operations -/

/-- C9: `set_price` fails with `InvalidPrice` exactly when the validation rule
rejects the price — which, the validation being a constant `True`, is never —
and on success it replaces the `price` field while leaving the symbol, the
trade log and the subclass data untouched; in particular negative prices are
accepted. -/
theorem set_price_always_succeeds (s : Stock) (p : ℚ) :
    Stock.is_valid_price s.name p = true ∧
    s.set_price p = ({ s with price := p }, none) := by
  exact ⟨rfl, by simp [Stock.set_price, Stock.is_valid_price]⟩

/-- C4: `add_trade` raises `SymbolMismatch` when the trade's stock symbol
differs from the stock's, leaving price and trade log unchanged; otherwise the
embedded `set_price` succeeds (the validation never fails) and the trade is
appended at the end of the log.  No partial state is ever produced. -/
theorem add_trade_atomic (s : Stock) (t : Trade) :
    s.add_trade t =
      if t.stock_name = s.name then
        ({ s with price := t.traded_price, trades := s.trades ++ [t] }, none)
      else (s, some MarketError.symbolMismatch) := by
  by_cases h : t.stock_name = s.name <;>
    simp [Stock.add_trade, Stock.set_price, Stock.is_valid_price, h]

/-- C6: `get_dividend_yield` of a common stock is `last_dividend / price`
(`0` when the price is `0`), and of a preferred stock is
`fixed_dividend_ratio · par_value / price` (`0` when the price is `0`);
being a total function it never fails. -/
theorem dividend_yield_formula (name : String) (price : ℚ)
    (trades : List Trade) (ld rate par : ℚ) :
    (Stock.get_dividend_yield ⟨name, price, trades, .common ld⟩ =
       if price = 0 then 0 else ld / price) ∧
    (Stock.get_dividend_yield ⟨name, price, trades, .preferred rate par⟩ =
       if price = 0 then 0 else rate * par / price) := by
  constructor <;> by_cases h : price = 0 <;>
    simp [Stock.get_dividend_yield, h]

/-- C3 (counter-evidence): the symbol validation matches only a three-letter
uppercase prefix, so the four-character symbol "ABCX" — which the claim says
must be rejected for its extra trailing character — passes validation and
construction succeeds. -/
theorem construct_accepts_trailing_characters :
    Stock.is_valid_name (some "ABCX") = true ∧
    Stock.construct (some "ABCX") 1 (.common 0) =
      .ok { name := "ABCX", price := 1, trades := [], variant := .common 0 } := by
  exact ⟨by decide, rfl⟩

/-- C2 (counter-evidence): `get_geometric_mean` does fail with
`InsufficientData` on an empty market, but on any non-empty market it calls
the nonexistent accessor `get_price` and raises `AttributeError` instead of
returning the n-th root of the price product. -/
theorem geometric_mean_raises_attribute_error :
    Market.init.get_geometric_mean = .error .insufficientData ∧
    marketWithTEA.get_geometric_mean = .error .attributeError := by
  exact ⟨rfl, rfl⟩

/-- C8: `register` fails with `DuplicateSymbol` exactly when the symbol is
already registered; the counter is never touched; on failure every lookup is
unchanged (so the previously registered stock's state is untouched), and on
success the stock becomes retrievable under its symbol while every other
symbol's lookup is unchanged. -/
theorem register_duplicate_frame (m : Market) (s : Stock) (sym : String) :
    ((m.register s).2 =
       if (lookupStock m.stocks_by_name s.name).isSome then
         some MarketError.duplicateSymbol
       else none) ∧
    (m.register s).1.trade_id_counter = m.trade_id_counter ∧
    (lookupStock (m.register s).1.stocks_by_name sym =
       if (lookupStock m.stocks_by_name s.name).isSome then
         lookupStock m.stocks_by_name sym
       else if sym = s.name then some s
       else lookupStock m.stocks_by_name sym) := by
  by_cases hd : (lookupStock m.stocks_by_name s.name).isSome
  · simp [Market.register, hd]
  · refine ⟨by simp [Market.register, hd], by simp [Market.register, hd], ?_⟩
    simp only [Market.register, hd, if_false, Bool.false_eq_true,
      lookupStock_append]
    by_cases hs : sym = s.name
    · subst hs
      rw [Option.not_isSome_iff_eq_none] at hd
      simp [hd, lookupStock]
    · cases hl : lookupStock m.stocks_by_name sym <;>
        simp [hd, hs, hl, lookupStock, Ne.symm hs]

/-- C10: `buy_now` and `sell_now` are the same procedure up to the recorded
trade's side: both equal the generic `trade_now` at their respective
indicator (which appears only in the constructed trade), and for all inputs
they raise the same exception and leave the same counter. -/
theorem buy_sell_equivalent (m : Market) (sn : String) (q p ts : ℚ) :
    m.buy_now sn q p ts = Market.trade_now .BUY m sn q p ts ∧
    m.sell_now sn q p ts = Market.trade_now .SELL m sn q p ts ∧
    (m.buy_now sn q p ts).2 = (m.sell_now sn q p ts).2 ∧
    (m.buy_now sn q p ts).1.trade_id_counter =
      (m.sell_now sn q p ts).1.trade_id_counter := by
  refine ⟨rfl, rfl, ?_, ?_⟩ <;>
  · cases h : lookupStock m.stocks_by_name sn with
    | none => simp [Market.buy_now, Market.sell_now, h]
    | some s =>
      by_cases hn : sn = s.name
      · subst hn
        simp [Market.buy_now, Market.sell_now, Stock.add_trade,
          Stock.set_price, Stock.is_valid_price, h]
      · simp [Market.buy_now, Market.sell_now, Stock.add_trade,
          Stock.set_price, Stock.is_valid_price, h, hn]

/-! ### The windowed volume-weighted price (claim C1) -/

theorem sumPQ_reverse (l : List Trade) : sumPQ l.reverse = sumPQ l := by
  simp [sumPQ, List.map_reverse, List.sum_reverse]

theorem sumQ_reverse (l : List Trade) : sumQ l.reverse = sumQ l := by
  simp [sumQ, List.map_reverse, List.sum_reverse]

/-- The early-exit scan accumulates exactly the sums over the longest prefix
of its input that stays inside the window. -/
theorem vwapLoop_eq (l : List Trade) (c : ℚ) (a b : ℚ) :
    vwapLoop l c (a, b) =
      (a + sumPQ (l.takeWhile (keep c)), b + sumQ (l.takeWhile (keep c))) := by
  induction l generalizing a b with
  | nil => simp [vwapLoop, sumPQ, sumQ]
  | cons t ts ih =>
    simp only [vwapLoop]
    by_cases h : t.timestamp < c
    · have hk : keep c t = false := by simp [keep, h]
      simp [h, List.takeWhile_cons, hk, sumPQ, sumQ]
    · have hk : keep c t = true := by simp [keep, h]
      rw [if_neg h, ih]
      simp only [List.takeWhile_cons, hk, if_true, sumPQ, sumQ, List.map_cons,
        List.sum_cons, Prod.mk.injEq]
      constructor <;> ring

/-- On a log sorted by non-decreasing timestamp, scanning the reversed log up
to the first out-of-window trade visits exactly the in-window trades of the
whole log. -/
theorem takeWhile_reverse_eq_filter (c : ℚ) (l : List Trade)
    (hs : List.Pairwise (fun a b : Trade => a.timestamp ≤ b.timestamp) l) :
    l.reverse.takeWhile (keep c) = (l.filter (keep c)).reverse := by
  induction l using List.reverseRecOn with
  | nil => simp
  | append_singleton l t ih =>
    rw [List.pairwise_append] at hs
    obtain ⟨h1, _, h3⟩ := hs
    rw [List.reverse_append]
    by_cases hk : keep c t = true
    · simp only [List.reverse_singleton, List.singleton_append,
        List.takeWhile_cons, hk, if_true]
      rw [ih h1, List.filter_append]
      simp [hk]
    · have hk' : keep c t = false := by simpa using hk
      have ht : t.timestamp < c := by
        have := hk'
        simp only [keep, Bool.not_eq_false'] at this
        exact of_decide_eq_true this
      have hfl : l.filter (keep c) = [] := by
        apply List.filter_eq_nil_iff.mpr
        intro x hx
        have hle : x.timestamp ≤ t.timestamp := h3 x hx t (by simp)
        simp [keep, lt_of_le_of_lt hle ht]
      simp only [List.reverse_singleton, List.singleton_append,
        List.takeWhile_cons, hk']
      rw [List.filter_append, hfl]
      simp [hk']

/-- When every trade happened no later than `now`, the code's one-sided cutoff
test selects exactly the trades of the two-sided window ending at `now`. -/
theorem filter_keep_eq_windowTrades (s : Stock) (now : ℚ)
    (hpast : ∀ t ∈ s.trades, t.timestamp ≤ now) :
    s.trades.filter (keep (now - price_window)) = windowTrades s now := by
  unfold windowTrades
  apply List.filter_congr
  intro t ht
  rw [decide_eq_true (hpast t ht), Bool.and_true]
  simp only [keep]
  by_cases hlt : t.timestamp < now - price_window
  · rw [decide_eq_true hlt, decide_eq_false (not_le.mpr hlt)]
    rfl
  · rw [decide_eq_false hlt, decide_eq_true (not_lt.mp hlt)]
    rfl

/-- C1: on a trade log ordered by non-decreasing timestamps (all of them no
later than the query instant `now`), the reverse scan with early exit returns
the quantity-weighted average price over exactly the trades falling in the
trailing window of length `price_window` ending at `now`, computed as
`Σ(price·quantity) / Σ(quantity)` over those trades, and returns `0` rather
than failing when no trade falls in the window. -/
theorem vwap_window_correct (s : Stock) (now : ℚ)
    (hsorted : List.Pairwise (fun a b : Trade => a.timestamp ≤ b.timestamp)
      s.trades)
    (hpast : ∀ t ∈ s.trades, t.timestamp ≤ now) :
    s.get_volume_weighted_price now =
      if windowTrades s now = [] then 0
      else sumPQ (windowTrades s now) / sumQ (windowTrades s now) := by
  have h1 := vwapLoop_eq s.trades.reverse (now - price_window) 0 0
  rw [takeWhile_reverse_eq_filter _ _ hsorted,
    filter_keep_eq_windowTrades s now hpast] at h1
  unfold Stock.get_volume_weighted_price
  rw [h1]
  simp only [zero_add, sumPQ_reverse, sumQ_reverse]
  by_cases hw : windowTrades s now = []
  · simp [hw, sumQ, sumPQ]
  · rw [if_neg hw]
    by_cases hq : sumQ (windowTrades s now) = 0
    · simp [hq, div_zero]
    · simp [hq]

/-- Witness for C1 at the spec's own example: the sorted two-trade log of
`TEA`, queried at time 2. -/
theorem vwap_window_correct_witness :
    List.Pairwise (fun a b : Trade => a.timestamp ≤ b.timestamp)
      stockTEATraded.trades ∧
    (∀ t ∈ stockTEATraded.trades, t.timestamp ≤ 2) ∧
    stockTEATraded.get_volume_weighted_price 2 =
      (if windowTrades stockTEATraded 2 = [] then 0
       else sumPQ (windowTrades stockTEATraded 2) /
         sumQ (windowTrades stockTEATraded 2)) :=
  ⟨by decide, by decide, vwap_window_correct stockTEATraded 2 (by decide) (by decide)⟩

/-! ### Batch price updates (claim C7) -/

theorem lookupPrice_eq_none_of_not_mem (l : List (String × ℚ)) (x : String)
    (h : x ∉ l.map Prod.fst) : lookupPrice l x = none := by
  induction l with
  | nil => rfl
  | cons e rest ih =>
    obtain ⟨k, p⟩ := e
    simp only [List.map_cons, List.mem_cons] at h
    push_neg at h
    simp [lookupPrice, Ne.symm h.1, ih h.2]

theorem setStock_lookup_self (l : List (String × Stock)) (k : String)
    (s s' : Stock) (h : lookupStock l k = some s) :
    lookupStock (setStock l k s') k = some s' := by
  induction l with
  | nil => simp [lookupStock] at h
  | cons e rest ih =>
    obtain ⟨k₀, s₀⟩ := e
    by_cases hk : k₀ = k
    · simp [setStock, lookupStock, hk]
    · simp only [lookupStock, hk, if_false] at h
      simp [setStock, lookupStock, hk, ih h]

theorem setStock_lookup_ne (l : List (String × Stock)) (k x : String)
    (s' : Stock) (h : x ≠ k) :
    lookupStock (setStock l k s') x = lookupStock l x := by
  induction l with
  | nil => rfl
  | cons e rest ih =>
    obtain ⟨k₀, s₀⟩ := e
    by_cases hk : k₀ = k
    · subst hk
      simp [setStock, lookupStock, Ne.symm h, ih]
    · by_cases hx : k₀ = x <;> simp [setStock, lookupStock, hk, hx, ih, h]

theorem setStock_of_absent (l : List (String × Stock)) (k : String)
    (s' : Stock) (h : lookupStock l k = none) : setStock l k s' = l := by
  induction l with
  | nil => rfl
  | cons e rest ih =>
    obtain ⟨k₀, s₀⟩ := e
    by_cases hk : k₀ = k
    · simp [lookupStock, hk] at h
    · simp only [lookupStock, hk, if_false] at h
      simp [setStock, hk, ih h]

theorem setStock_lookup_isNone (l : List (String × Stock)) (k x : String)
    (s' : Stock) :
    (lookupStock (setStock l k s') x).isNone = (lookupStock l x).isNone := by
  by_cases hx : x = k
  · subst hx
    cases h : lookupStock l x with
    | none => rw [setStock_of_absent l x s' h, h]
    | some s => simp [setStock_lookup_self l x s s' h, h]
  · rw [setStock_lookup_ne l k x s' hx]

/-- C7: `update_stock_prices` raises nothing; it reports exactly the
unregistered symbols of the map (in order) as warnings and keeps processing
after them; every registered symbol in the map ends with its mapped price
(trade log, symbol and subclass data untouched); every symbol not in the map
keeps its previous state; and the trade-id counter is unchanged. -/
theorem update_stock_prices_partial (m : Market) (pm : List (String × ℚ))
    (sym : String) (hnd : (pm.map Prod.fst).Nodup) :
    (m.update_stock_prices pm).2.2 = none ∧
    (m.update_stock_prices pm).2.1 =
      (pm.filter (fun e => (lookupStock m.stocks_by_name e.1).isNone)).map
        Prod.fst ∧
    (m.update_stock_prices pm).1.trade_id_counter = m.trade_id_counter ∧
    lookupStock (m.update_stock_prices pm).1.stocks_by_name sym =
      (match lookupPrice pm sym with
       | some p =>
         (lookupStock m.stocks_by_name sym).map fun s => { s with price := p }
       | none => lookupStock m.stocks_by_name sym) := by
  induction pm generalizing m with
  | nil => simp [Market.update_stock_prices, lookupPrice]
  | cons e rest ih =>
    obtain ⟨k, p⟩ := e
    rw [List.map_cons, List.nodup_cons] at hnd
    obtain ⟨hknotin, hnd'⟩ := hnd
    cases hl : lookupStock m.stocks_by_name k with
    | some s =>
      have hstep : m.update_stock_prices ((k, p) :: rest) =
          Market.update_stock_prices
            { m with stocks_by_name :=
                setStock m.stocks_by_name k { s with price := p } } rest := by
        simp [Market.update_stock_prices, hl, Stock.set_price,
          Stock.is_valid_price]
      obtain ⟨ih1, ih2, ih3, ih4⟩ :=
        ih { m with stocks_by_name :=
              setStock m.stocks_by_name k { s with price := p } } hnd'
      refine ⟨by rw [hstep]; exact ih1, ?_, by rw [hstep]; exact ih3, ?_⟩
      · rw [hstep, ih2]
        have hfilter :
            rest.filter (fun e =>
              (lookupStock (setStock m.stocks_by_name k { s with price := p })
                e.1).isNone) =
            rest.filter (fun e =>
              (lookupStock m.stocks_by_name e.1).isNone) :=
          List.filter_congr fun e _ => by
            rw [setStock_lookup_isNone]
        rw [hfilter, List.filter_cons]
        simp [hl]
      · rw [hstep, ih4]
        by_cases hs : sym = k
        · subst hs
          rw [lookupPrice_eq_none_of_not_mem rest sym hknotin]
          simp only [lookupPrice, if_pos rfl]
          rw [setStock_lookup_self m.stocks_by_name sym s _ hl, hl]
          rfl
        · rw [setStock_lookup_ne m.stocks_by_name k sym _ hs]
          simp [lookupPrice, Ne.symm hs]
    | none =>
      have hstep : m.update_stock_prices ((k, p) :: rest) =
          ((m.update_stock_prices rest).1,
           k :: (m.update_stock_prices rest).2.1,
           (m.update_stock_prices rest).2.2) := by
        simp [Market.update_stock_prices, hl]
      obtain ⟨ih1, ih2, ih3, ih4⟩ := ih m hnd'
      refine ⟨by rw [hstep]; exact ih1, ?_, by rw [hstep]; exact ih3, ?_⟩
      · rw [hstep]
        simp only [ih2, List.filter_cons]
        simp [hl]
      · rw [hstep]
        by_cases hs : sym = k
        · subst hs
          rw [ih4, lookupPrice_eq_none_of_not_mem rest sym hknotin]
          simp [lookupPrice, hl]
        · rw [ih4]
          simp [lookupPrice, Ne.symm hs]

/-- Witness for C7 at the spec's example: updating `{"TEA": 40, "ZZZ": 10}`
against the market containing only `TEA`, observed at symbol `TEA`. -/
theorem update_stock_prices_partial_witness :
    (([("TEA", (40 : ℚ)), ("ZZZ", 10)].map Prod.fst).Nodup) ∧
    ((marketWithTEA.update_stock_prices [("TEA", 40), ("ZZZ", 10)]).2.2 =
       none ∧
     (marketWithTEA.update_stock_prices [("TEA", 40), ("ZZZ", 10)]).2.1 =
       ([("TEA", (40 : ℚ)), ("ZZZ", 10)].filter (fun e =>
         (lookupStock marketWithTEA.stocks_by_name e.1).isNone)).map
           Prod.fst ∧
     (marketWithTEA.update_stock_prices
        [("TEA", 40), ("ZZZ", 10)]).1.trade_id_counter =
       marketWithTEA.trade_id_counter ∧
     lookupStock (marketWithTEA.update_stock_prices
        [("TEA", 40), ("ZZZ", 10)]).1.stocks_by_name "TEA" =
       (match lookupPrice [("TEA", (40 : ℚ)), ("ZZZ", 10)] "TEA" with
        | some p =>
          (lookupStock marketWithTEA.stocks_by_name "TEA").map fun s =>
            { s with price := p }
        | none => lookupStock marketWithTEA.stocks_by_name "TEA")) :=
  ⟨by decide,
   update_stock_prices_partial marketWithTEA [("TEA", 40), ("ZZZ", 10)] "TEA"
     (by decide)⟩

/-! ### Trade-id bookkeeping (claim C5) -/

theorem lookupStock_mem (l : List (String × Stock)) (k : String) (s : Stock)
    (h : lookupStock l k = some s) : (k, s) ∈ l := by
  induction l with
  | nil => simp [lookupStock] at h
  | cons e rest ih =>
    obtain ⟨k₀, s₀⟩ := e
    by_cases hk : k₀ = k
    · subst hk
      simp [lookupStock] at h
      subst h
      exact List.mem_cons_self _ _
    · simp only [lookupStock, hk, if_false] at h
      exact List.mem_cons_of_mem _ (ih h)

theorem setStock_map_fst (l : List (String × Stock)) (k : String)
    (s' : Stock) : (setStock l k s').map Prod.fst = l.map Prod.fst := by
  induction l with
  | nil => rfl
  | cons e rest ih =>
    obtain ⟨k₀, s₀⟩ := e
    by_cases hk : k₀ = k <;> simp [setStock, hk, ih]

theorem setStock_mem (l : List (String × Stock)) (k : String) (s' : Stock)
    (e : String × Stock) (h : e ∈ setStock l k s') :
    e ∈ l ∨ (e.1 = k ∧ e.2 = s') := by
  induction l with
  | nil => simp [setStock] at h
  | cons e₀ rest ih =>
    obtain ⟨k₀, s₀⟩ := e₀
    by_cases hk : k₀ = k
    · subst hk
      simp [setStock] at h
      rcases h with h | h
      · right; simp [h]
      · rcases ih h with h' | h'
        · exact Or.inl (List.mem_cons_of_mem _ h')
        · exact Or.inr h'
    · simp only [setStock, hk, if_false, List.mem_cons] at h
      rcases h with h | h
      · exact Or.inl (by simp [h])
      · rcases ih h with h' | h'
        · exact Or.inl (List.mem_cons_of_mem _ h')
        · exact Or.inr h'

theorem range'_snoc (s n : Nat) :
    List.range' s (n + 1) = List.range' s n ++ [s + n] := by
  induction n generalizing s with
  | zero => simp [List.range']
  | succ n ih =>
    rw [List.range'_succ, ih (s + 1), List.range'_succ]
    have : s + 1 + n = s + (n + 1) := by omega
    rw [List.cons_append, this]

theorem flattenIds_setStock (l : List (String × Stock)) (k : String)
    (s s' : Stock) (i : Nat) (h : lookupStock l k = some s)
    (hnd : (l.map Prod.fst).Nodup) (hids : stockIds s' = stockIds s ++ [i]) :
    ((setStock l k s').map (fun e => stockIds e.2)).flatten.Perm
      ((l.map (fun e => stockIds e.2)).flatten ++ [i]) := by
  induction l with
  | nil => simp [lookupStock] at h
  | cons e rest ih =>
    obtain ⟨k₀, s₀⟩ := e
    rw [List.map_cons, List.nodup_cons] at hnd
    obtain ⟨hnotin, hnd'⟩ := hnd
    by_cases hk : k₀ = k
    · subst hk
      simp [lookupStock] at h
      subst h
      have hrest : lookupStock rest k₀ = none :=
        (lookupStock_eq_none_iff rest k₀).mpr hnotin
      have hset : setStock ((k₀, s₀) :: rest) k₀ s' = (k₀, s') :: rest := by
        simp [setStock, setStock_of_absent rest k₀ s' hrest]
      rw [hset]
      simp only [List.map_cons, List.flatten_cons, hids]
      rw [List.append_assoc, List.append_assoc]
      exact List.Perm.append_left _ List.perm_append_comm
    · simp only [lookupStock, hk, if_false] at h
      simp only [setStock, hk, if_false, List.map_cons, List.flatten_cons]
      rw [List.append_assoc]
      exact List.Perm.append_left _ (ih h hnd')

theorem marketOk_init : MarketOk Market.init := by
  constructor <;> simp [Market.init, allTradeIds]

theorem trade_now_ok (ind : TradeIndicator) (m : Market) (sn : String)
    (q p ts : ℚ) (hok : MarketOk m) :
    MarketOk (Market.trade_now ind m sn q p ts).1 := by
  unfold Market.trade_now
  cases hl : lookupStock m.stocks_by_name sn with
  | none => exact hok
  | some s =>
    have hsn : sn = s.name := hok.keys_names (sn, s) (lookupStock_mem _ _ _ hl)
    have hadd : s.add_trade
        { trade_id := m.trade_id_counter, stock_name := sn, quantity := q,
          indicator := ind, traded_price := p, timestamp := ts } =
        ({ s with price := p, trades := s.trades ++
            [{ trade_id := m.trade_id_counter, stock_name := sn,
               quantity := q, indicator := ind, traded_price := p,
               timestamp := ts }] }, none) := by
      simp [Stock.add_trade, Stock.set_price, Stock.is_valid_price, hsn]
    dsimp only
    rw [hadd]
    constructor
    · exact Nat.le_succ_of_le hok.counter_pos
    · intro e he
      rcases setStock_mem _ _ _ e he with h' | ⟨h1, h2⟩
      · exact hok.keys_names e h'
      · rw [h1, h2]
        exact hsn
    · rw [setStock_map_fst]
      exact hok.keys_nodup
    · have hperm := flattenIds_setStock m.stocks_by_name sn s
        { s with price := p, trades := s.trades ++
            [{ trade_id := m.trade_id_counter, stock_name := sn,
               quantity := q, indicator := ind, traded_price := p,
               timestamp := ts }] }
        m.trade_id_counter hl hok.keys_nodup (by simp [stockIds])
      have h3 : List.range' 1 (m.trade_id_counter - 1) ++
          [m.trade_id_counter] =
          List.range' 1 (m.trade_id_counter + 1 - 1) := by
        have hc := hok.counter_pos
        have h4 : m.trade_id_counter + 1 - 1 = (m.trade_id_counter - 1) + 1 :=
          by omega
        rw [h4, range'_snoc]
        have h5 : 1 + (m.trade_id_counter - 1) = m.trade_id_counter := by
          omega
        rw [h5]
      dsimp only [allTradeIds]
      rw [← h3]
      exact hperm.trans (hok.ids_perm.append (List.Perm.refl _))

theorem register_preserves_ok (m : Market) (s : Stock) (hok : MarketOk m)
    (hs : s.trades = []) : MarketOk (m.register s).1 := by
  unfold Market.register
  by_cases hd : (lookupStock m.stocks_by_name s.name).isSome
  · simpa [hd] using hok
  · rw [if_neg hd]
    constructor
    · exact hok.counter_pos
    · intro e he
      rcases List.mem_append.mp he with h' | h'
      · exact hok.keys_names e h'
      · simp only [List.mem_singleton] at h'
        simp [h']
    · rw [List.map_append]
      apply List.Nodup.append hok.keys_nodup (List.nodup_singleton _)
      intro a ha hb
      simp only [List.map_cons, List.map_nil, List.mem_singleton] at hb
      subst hb
      rw [Option.not_isSome_iff_eq_none, lookupStock_eq_none_iff] at hd
      exact hd ha
    · show ((m.stocks_by_name ++ [(s.name, s)]).map
          (fun e => stockIds e.2)).flatten.Perm _
      rw [List.map_append, List.flatten_append]
      simp only [List.map_cons, List.map_nil, List.flatten_cons,
        List.flatten_nil, List.append_nil, stockIds, hs, List.map_nil]
      exact hok.ids_perm

theorem step_preserves_ok (m : Market) (c : Cmd) (hok : MarketOk m) :
    MarketOk (Market.step m c).1 := by
  cases c with
  | register n p v =>
    unfold Market.step
    dsimp only
    cases hc : Stock.construct n p v with
    | error e => exact hok
    | ok s =>
      have hs : s.trades = [] := by
        cases n with
        | none => simp [Stock.construct] at hc
        | some nm =>
          unfold Stock.construct at hc
          dsimp only at hc
          split_ifs at hc with h1 h2
          rw [Except.ok.injEq] at hc
          rw [← hc]
      exact register_preserves_ok m s hok hs
  | buy sn q p ts =>
    have hr : Market.step m (Cmd.buy sn q p ts) =
        Market.trade_now .BUY m sn q p ts := rfl
    rw [hr]
    exact trade_now_ok .BUY m sn q p ts hok
  | sell sn q p ts =>
    have hr : Market.step m (Cmd.sell sn q p ts) =
        Market.trade_now .SELL m sn q p ts := rfl
    rw [hr]
    exact trade_now_ok .SELL m sn q p ts hok

theorem run_preserves_ok (cmds : List Cmd) (m : Market) (hok : MarketOk m) :
    MarketOk (Market.run m cmds) := by
  induction cmds generalizing m with
  | nil => exact hok
  | cons c cs ih =>
    rw [Market.run]
    exact ih _ (step_preserves_ok m c hok)

theorem trade_now_counter (ind : TradeIndicator) (m : Market) (sn : String)
    (q p ts : ℚ) :
    (Market.trade_now ind m sn q p ts).1.trade_id_counter =
      (if (Market.trade_now ind m sn q p ts).2 = none then
        m.trade_id_counter + 1
      else m.trade_id_counter) := by
  unfold Market.trade_now
  cases hl : lookupStock m.stocks_by_name sn with
  | none => simp
  | some s =>
    by_cases hn : sn = s.name
    · subst hn
      simp [Stock.add_trade, Stock.set_price, Stock.is_valid_price]
    · simp [Stock.add_trade, hn]

/-- C5: starting from the initial market, after any sequence of calls the ids
carried by the recorded trades are — as a multiset — exactly the consecutive
integers `1, ..., trade_id_counter - 1`: issued in increasing order with no
gaps and never reused.  Moreover a step increments the trade-id counter
exactly when it is a buy/sell request that raised no exception, so every
failed `buy_now`/`sell_now` (in particular a `NotFound`) leaves the counter
unchanged. -/
theorem trade_ids_consecutive (cmds : List Cmd) (m : Market) (c : Cmd) :
    (allTradeIds (Market.run Market.init cmds)).Perm
      (List.range' 1 ((Market.run Market.init cmds).trade_id_counter - 1)) ∧
    (Market.step m c).1.trade_id_counter =
      (if (Market.step m c).2 = none ∧ c.isTrade = true then
        m.trade_id_counter + 1
      else m.trade_id_counter) := by
  constructor
  · exact (run_preserves_ok cmds Market.init marketOk_init).ids_perm
  · cases c with
    | register n p v =>
      simp only [Cmd.isTrade, Bool.false_eq_true, and_false, if_false]
      unfold Market.step
      dsimp only
      cases hc : Stock.construct n p v with
      | error e => rfl
      | ok s =>
        unfold Market.register
        by_cases hd : (lookupStock m.stocks_by_name s.name).isSome <;>
          simp [hd]
    | buy sn q p ts =>
      have hr : Market.step m (Cmd.buy sn q p ts) =
          Market.trade_now .BUY m sn q p ts := rfl
      rw [hr]
      simp only [Cmd.isTrade, eq_self_iff_true, and_true]
      exact trade_now_counter .BUY m sn q p ts
    | sell sn q p ts =>
      have hr : Market.step m (Cmd.sell sn q p ts) =
          Market.trade_now .SELL m sn q p ts := rfl
      rw [hr]
      simp only [Cmd.isTrade, eq_self_iff_true, and_true]
      exact trade_now_counter .SELL m sn q p ts
